import Mathlib

/-!
Verification of the Unbound vault reconciliation engine (Python backend)
against its design specification.

Each Python service is shallowly embedded as executable Lean definitions:
floats carrying USD / token amounts become rationals, the polling loops
become explicit state-passing functions, and every external effect
(contract invocation, exchange order, transfer) is recorded as an event in
the result of the function so that theorems can talk about which on-chain calls
occur.  Fallible collaborators (signed invocations, forwarding transfers)
are modelled by boolean oracles passed in as arguments.
-/

namespace Unbound

/-! ## NAV reporter (src/backend/src/services/nav_reporter.py)

State is `last_nav` (`NAVReporter.last_nav`, initially 0).  The scheduled
path `_report_nav` reads Extended equity, applies `_is_safe_update`, and
invokes `update_nav` on the vault; `force_update` is the manual admin
path.  The `calls` field of `NavResult` lists the NAV values passed to
`update_nav` invocations during the step (empty when no on-chain call is
made).  `invoke_ok` models whether the invocation returns a result. -/

structure NavState where
  last_nav : ℚ
deriving Repr, DecidableEq

/-- The rate-limit constant `NAVReporter.max_change_bps = 500` (5%). -/
def max_change_bps : ℚ := 500

/-- Embeds `NAVReporter._is_safe_update`. -/
def is_safe_update (s : NavState) (new_nav : ℚ) : Bool :=
  if s.last_nav ≤ 0 then true
  else decide (|new_nav - s.last_nav| * 10000 / s.last_nav ≤ max_change_bps)

structure NavResult where
  state : NavState
  calls : List ℚ
deriving Repr, DecidableEq

/-- Embeds `NAVReporter._report_nav` for one tick, with the fetched Extended
equity and the success of the `update_nav` invocation given as inputs. -/
def report_nav (s : NavState) (equity : ℚ) (invoke_ok : Bool) : NavResult :=
  if equity ≤ 0 then ⟨s, []⟩
  else if is_safe_update s equity then
    (if invoke_ok then ⟨⟨equity⟩, [equity]⟩ else ⟨s, [equity]⟩)
  else ⟨s, []⟩

/-- Embeds `NAVReporter.force_update` with an explicit forced value `nav`
(the `nav is None` branch substitutes current equity for `nav` before
reaching this logic). -/
def force_update (s : NavState) (nav : ℚ) (invoke_ok : Bool) : NavResult :=
  if nav ≤ 0 then ⟨s, []⟩
  else if invoke_ok then ⟨⟨nav⟩, [nav]⟩ else ⟨s, [nav]⟩

/-! ## Position manager funding latch
(src/backend/src/services/position_manager.py)

`PositionManager._check_funding_rate` reads the funding rate and closes
the whole hedge when it drops below `negative_funding_threshold`,
latching `position_closed_due_to_funding`.  The embedding returns the new
flag value together with whether `_close_all_positions` was invoked. -/

/-- The threshold `PositionManager.negative_funding_threshold = -0.0001`. -/
def negative_funding_threshold : ℚ := -1/10000

structure FundingCheckResult where
  flag : Bool
  closed : Bool
deriving Repr, DecidableEq

/-- Embeds `PositionManager._check_funding_rate` for one tick, given the current
latch flag and the observed funding rate. -/
def check_funding_rate (flag : Bool) (funding : ℚ) : FundingCheckResult :=
  if funding < negative_funding_threshold then
    if flag = false then ⟨true, true⟩ else ⟨flag, false⟩
  else
    if flag = true then ⟨false, false⟩ else ⟨flag, false⟩

/-! ## Delta-neutral strategy (src/backend/src/strategy.py)

`UnboundVaultStrategy.get_state` derives the delta-neutral metrics from
the observed funding rate, short position, Extended balance, BTC mark
price and vault wBTC holdings; `execute_strategy` then picks one action.
The action constructors mirror the `action` field of the dicts returned
by `execute_strategy`. -/

structure StrategyState where
  funding_rate : ℚ
  has_position : Bool
  position_size : ℚ
  position_value : ℚ
  balance : ℚ
  equity : ℚ
  wbtc_held : ℚ
  wbtc_value_usd : ℚ
  total_nav : ℚ
  delta : ℚ
deriving Repr, DecidableEq

/-- Embeds `UnboundVaultStrategy.get_state`: builds the `StrategyState` from the
gateway observations.  `position` is `some (size, value)` when a short
position exists, `balance_equity` is `(balance.balance, balance.equity)`
of the Extended account. -/
def mkStrategyState (funding : ℚ) (position : Option (ℚ × ℚ))
    (balance_equity : ℚ × ℚ) (btc_price wbtc_held : ℚ) : StrategyState :=
  let wbtc_value_usd := wbtc_held * btc_price
  let extended_equity := balance_equity.2
  let total_nav := wbtc_value_usd + extended_equity
  let short_exposure := match position with | some p => p.2 | none => 0
  let delta := if 0 < total_nav then (wbtc_value_usd - short_exposure) / total_nav else 0
  { funding_rate := funding
    has_position := position.isSome
    position_size := match position with | some p => p.1 | none => 0
    position_value := short_exposure
    balance := balance_equity.1
    equity := extended_equity
    wbtc_held := wbtc_held
    wbtc_value_usd := wbtc_value_usd
    total_nav := total_nav
    delta := delta }

inductive StrategyAction
  | rebalanceShortUp (adjustment : ℚ)
  | rebalanceShortDown (adjustment btc_closed : ℚ)
  | openShort (size_usd : ℚ)
  | closePosition
  | hold
deriving Repr, DecidableEq

/-- Embeds `UnboundVaultStrategy.should_open_position`. -/
def should_open_position (funding_rate : ℚ) (has_position : Bool)
    (open_threshold : ℚ) : Bool :=
  if has_position then false else decide (open_threshold < funding_rate)

/-- Embeds `UnboundVaultStrategy.should_close_position`. -/
def should_close_position (funding_rate : ℚ) (has_position : Bool)
    (close_threshold : ℚ) : Bool :=
  if has_position = false then false else decide (funding_rate < close_threshold)

/-- Embeds `UnboundVaultStrategy.calculate_position_size`. -/
def calculate_position_size (available_balance leverage : ℚ) : ℚ :=
  available_balance * (9/10) * leverage

/-- The band `DELTA_THRESHOLD = 0.05` in `execute_strategy`. -/
def delta_threshold : ℚ := 1/20

/-- Steps 2 and 3 of `execute_strategy` (open on positive funding, close
on negative funding, else hold), reached when the delta-rebalancing
branch does not fire. -/
def execute_strategy_rest (st : StrategyState)
    (open_threshold close_threshold leverage : ℚ) : StrategyAction :=
  if should_open_position st.funding_rate st.has_position open_threshold then
    StrategyAction.openShort
      (if 0 < st.wbtc_value_usd then st.wbtc_value_usd
       else calculate_position_size st.equity leverage)
  else if should_close_position st.funding_rate st.has_position close_threshold then
    StrategyAction.closePosition
  else StrategyAction.hold

/-- Embeds `UnboundVaultStrategy.execute_strategy`, one iteration.  `btc_price`
is the mark price fetched in the decrease branch to convert the USD
adjustment into a BTC size. -/
def execute_strategy (st : StrategyState)
    (open_threshold close_threshold leverage btc_price : ℚ) : StrategyAction :=
  if delta_threshold < |st.delta| ∧ 0 < st.wbtc_value_usd then
    let adjustment := st.wbtc_value_usd - st.position_value
    if 10 < adjustment then StrategyAction.rebalanceShortUp adjustment
    else if adjustment < -10 then
      StrategyAction.rebalanceShortDown adjustment (|adjustment| / btc_price)
    else execute_strategy_rest st open_threshold close_threshold leverage
  else execute_strategy_rest st open_threshold close_threshold leverage

def isRebalance : StrategyAction → Bool
  | StrategyAction.rebalanceShortUp _ => true
  | StrategyAction.rebalanceShortDown _ _ => true
  | _ => false

/-- The concrete state of the spec scenario: risk-asset value $100
(0.001 wBTC at $100,000), hedge notional $80, Extended equity $80,
total NAV $180. -/
def scenarioState : StrategyState :=
  mkStrategyState 0 (some (1/1000, 80)) (80, 80) 100000 (1/1000)

/-! ## Withdrawal processor
(src/backend/src/services/withdrawal_processor.py)

The in-memory de-duplication dict `WithdrawalProcessor.processing_withdrawals`
is modelled as an association list with Python-dict semantics: assignment
replaces the value of an existing key in place and otherwise appends, and
`del` removes the key.  A `ProcEntry` keeps the fields of the tracking dict
that drive the control flow (`usdc_value`, the Extended settlement-asset
half, and `step`); `user`, `shares` and `started_at` are carried along in
the code but never read by the state machine.  Every exchange or on-chain
side effect is recorded as a `WEvent`. -/

inductive WithdrawalStatus
  | PENDING
  | PROCESSING
  | READY
  | COMPLETED
  | CANCELLED
deriving Repr, DecidableEq

/-- The fields of the fetched on-chain `WithdrawalQueueItem` that the
processor logic reads (`_get_pending_withdrawal` sets `request_id` to the
queried index, so the id is the scan index itself). -/
structure WithdrawalQueueItem where
  shares : Nat
  status : WithdrawalStatus
deriving Repr, DecidableEq

inductive WStep
  | closing_position
  | waiting_usdc
deriving Repr, DecidableEq

structure ProcEntry where
  usdc_value : ℚ
  step : WStep
deriving Repr, DecidableEq

abbrev ProcMap := List (Nat × ProcEntry)

def hasKey : ProcMap → Nat → Bool
  | [], _ => false
  | p :: rest, id => p.1 == id || hasKey rest id

def mlookup : ProcMap → Nat → Option ProcEntry
  | [], _ => none
  | p :: rest, id => if p.1 = id then some p.2 else mlookup rest id

def dictSet : ProcMap → Nat → ProcEntry → ProcMap
  | [], id, e => [(id, e)]
  | p :: rest, id, e => if p.1 = id then (id, e) :: rest else p :: dictSet rest id e

def dictDel : ProcMap → Nat → ProcMap
  | [], _ => []
  | p :: rest, id => if p.1 = id then dictDel rest id else p :: dictDel rest id

/-- A Python dict never holds two entries for the same key; reachable
`ProcMap`s satisfy this invariant. -/
def keysNodup (m : ProcMap) : Prop := (m.map Prod.fst).Nodup

inductive WEvent
  | startProcessing (id : Nat)
  | requestWithdrawExchange (id : Nat) (amount : ℚ)
  | forwardToVault (amount : ℚ)
  | markReady (id : Nat) (amount_raw : ℤ)
deriving Repr, DecidableEq

/-- Embeds `WithdrawalProcessor._start_processing` for one PENDING withdrawal.
`usdc_value` is the preview valuation `_calculate_usdc_value(shares)` and
`withdraw_ok` the result of `extended.withdraw_from_extended` (failure
and a raised exception both end with the tracking entry deleted, so they
are modelled alike).  The proportional position close between the two
steps touches neither the map nor the on-chain state. -/
def start_processing (m : ProcMap) (id : Nat) (usdc_value : ℚ)
    (withdraw_ok : Bool) : ProcMap × List WEvent :=
  if usdc_value ≤ 0 then (m, [])
  else
    let extended_usdc := usdc_value / 2
    let m1 := dictSet m id ⟨extended_usdc, WStep.closing_position⟩
    if withdraw_ok then
      (dictSet m1 id ⟨extended_usdc, WStep.waiting_usdc⟩,
        [WEvent.requestWithdrawExchange id extended_usdc])
    else
      (dictDel m1 id, [WEvent.requestWithdrawExchange id extended_usdc])

/-- The scan loop of `WithdrawalProcessor._process_pending_withdrawals`
over a list of request ids. -/
def scan_ids (q : Nat → Option WithdrawalQueueItem) (preview : Nat → ℚ)
    (wOk : Nat → Bool) : ProcMap → List Nat → ProcMap × List WEvent
  | m, [] => (m, [])
  | m, id :: rest =>
    match q id with
    | none => scan_ids q preview wOk m rest
    | some w =>
      if w.status = WithdrawalStatus.PENDING then
        if hasKey m id = true then scan_ids q preview wOk m rest
        else
          let r := start_processing m id (preview w.shares) (wOk id)
          let s := scan_ids q preview wOk r.1 rest
          (s.1, WEvent.startProcessing id :: (r.2 ++ s.2))
      else scan_ids q preview wOk m rest

/-- Embeds `WithdrawalProcessor._process_pending_withdrawals`: scan request ids
`0, …, queue_length − 1` and start processing each PENDING withdrawal not
already tracked. -/
def process_pending_withdrawals (m : ProcMap)
    (q : Nat → Option WithdrawalQueueItem) (queue_length : Nat)
    (preview : Nat → ℚ) (wOk : Nat → Bool) : ProcMap × List WEvent :=
  scan_ids q preview wOk m (List.range queue_length)

/-- Embeds `WithdrawalProcessor._complete_processing`: forward the settlement
half to the vault, then invoke `mark_withdrawal_ready` with the amount in
6-decimal fixed point.  Returns whether the whole step succeeded. -/
def complete_processing (id : Nat) (e : ProcEntry) (forward_ok mark_ok : Bool) :
    Bool × List WEvent :=
  if forward_ok = false then (false, [WEvent.forwardToVault e.usdc_value])
  else
    let evs := [WEvent.forwardToVault e.usdc_value,
                WEvent.markReady id (Int.floor (e.usdc_value * 1000000))]
    if mark_ok then (true, evs) else (false, evs)

/-- The loop body of `WithdrawalProcessor._check_processing_withdrawals`:
for each tracked entry at step `waiting_usdc` whose due amount the
operator wallet balance has reached, run `_complete_processing` and
collect the ids whose completion succeeded. -/
def check_entries (usdc_balance : ℚ) (fOk mOk : Nat → Bool) :
    List (Nat × ProcEntry) → List Nat × List WEvent
  | [] => ([], [])
  | p :: rest =>
    let t := check_entries usdc_balance fOk mOk rest
    if p.2.step = WStep.waiting_usdc ∧ p.2.usdc_value ≤ usdc_balance then
      let c := complete_processing p.1 p.2 (fOk p.1) (mOk p.1)
      ((if c.1 then p.1 :: t.1 else t.1), c.2 ++ t.2)
    else t

/-- Embeds `WithdrawalProcessor._check_processing_withdrawals`: run the loop and
delete the completed entries from the tracking dict. -/
def check_processing_withdrawals (m : ProcMap) (usdc_balance : ℚ)
    (fOk mOk : Nat → Bool) : ProcMap × List WEvent :=
  let r := check_entries usdc_balance fOk mOk m
  (r.1.foldl dictDel m, r.2)

def isStartOf (id : Nat) : WEvent → Bool
  | WEvent.startProcessing j => j == id
  | _ => false

/-- Number of `_start_processing` calls for a given request id in an
event trace. -/
def startsFor (evs : List WEvent) (id : Nat) : Nat := evs.countP (isStartOf id)

/-- A one-item withdrawal queue used to instantiate the dedup theorem:
request 0 is PENDING with 100 shares. -/
def exampleWithdrawQueue : Nat → Option WithdrawalQueueItem :=
  fun j => if j = 0 then some ⟨100, WithdrawalStatus.PENDING⟩ else none

/-- The concrete tracking map of the C5 counterexample: withdrawal 2 is
mid-flight at step `waiting_usdc` with a due settlement of 250. -/
def cexProcMap : ProcMap := [(2, ⟨250, WStep.waiting_usdc⟩)]

/-- The C6 scenario queue: three queue slots, request 2 PENDING with 10
shares (slots 0 and 1 read back empty). -/
def scenQueue : Nat → Option WithdrawalQueueItem :=
  fun j => if j = 2 then some ⟨10, WithdrawalStatus.PENDING⟩ else none

/-- The C6 scenario preview valuation: the 10 shares of request 2 are
worth 500.00 (the on-chain `preview_redeem` result scaled to USD). -/
def scenPreview : Nat → ℚ := fun s => if s = 10 then 500 else 0

/-- The tracking map after the C6 scenario scan tick: request 2 has been
started (PROCESSING) with the settlement-asset half 250 due. -/
def scenProcMap : ProcMap :=
  (process_pending_withdrawals [] scenQueue 3 scenPreview (fun _ => true)).1

/-! ## Deposit processor
(src/backend/src/services/deposit_processor.py)

`_process_pending_deposits` scans deposit ids from 0 up to the
`MAX_DEPOSITS = 100` safety ceiling, skipping unreadable slots, stopping
at the first empty slot (`user == 0x0`, i.e. the zero address), skipping
entries already `processed` and entries at or below the 0.01 dust
threshold, and calling `_process_single_deposit` — whose first action is
the minting `process_deposits` invocation — for each actionable entry.
The scan is modelled as the list of request ids for which that mint
invocation is issued. -/

/-- The fields of a fetched `DepositQueueItem` read by the scan: `user`
as a numeric address (0 is the empty-slot sentinel `0x0`), the USD
amount, and the on-chain `processed` flag. -/
structure DepositQueueItem where
  user : Nat
  usdc_amount : ℚ
  processed : Bool
deriving Repr, DecidableEq

/-- The scan loop of `_process_pending_deposits`, with explicit fuel
(`MAX_DEPOSITS` minus the ids visited so far).  Returns the ids for which
the mint invocation `process_deposits` is issued. -/
def scan_deposits (q : Nat → Option DepositQueueItem) : Nat → Nat → List Nat
  | 0, _ => []
  | fuel+1, id =>
    match q id with
    | none => scan_deposits q fuel (id+1)
    | some d =>
      if d.user = 0 then []
      else if d.processed = true then scan_deposits q fuel (id+1)
      else if d.usdc_amount ≤ 1/100 then scan_deposits q fuel (id+1)
      else id :: scan_deposits q fuel (id+1)

/-- Embeds `DepositProcessor._process_pending_deposits`. -/
def process_pending_deposits (q : Nat → Option DepositQueueItem) : List Nat :=
  scan_deposits q 100 0

/-- The on-chain effect of a successful first pass: every deposit whose
mint invocation was issued now reads back with `processed = true`; no
other entry changes and no new entries appear. -/
def markProcessed (q : Nat → Option DepositQueueItem) (done : List Nat) :
    Nat → Option DepositQueueItem :=
  fun id => (q id).map
    (fun d => if id ∈ done then { d with processed := true } else d)

/-- A one-entry deposit queue whose entry 0 is already processed, used to
instantiate the skip property of C3. -/
def exampleDepositQueue : Nat → Option DepositQueueItem :=
  fun j => if j = 0 then some ⟨1, 5, true⟩ else
    if j = 1 then some ⟨0, 0, false⟩ else none

/-! ## Balance monitor (`VaultMonitor` in src/backend/src/starknet_client.py)

`MonState` is the persisted monitor record.  `check_for_balance_changes`
is given the freshly read wallet balance and the outcome of the (up to
two) `send_usdc_to_vault` forwarding attempts; it returns the new state,
the list of forwarding amounts attempted, and the value the method returns.
`expect_withdrawal` registers an expected inbound transfer from the
exchange (called by `withdraw_from_extended`). -/

structure MonState where
  last_balance : ℚ
  pending_deposit : ℚ
  pending_withdrawal_amount : ℚ
deriving Repr, DecidableEq

/-- Embeds `VaultMonitor.expect_withdrawal`. -/
def expect_withdrawal (s : MonState) (amount : ℚ) : MonState :=
  { s with pending_withdrawal_amount := s.pending_withdrawal_amount + amount }

/-- The `current_balance > last_balance` classification part of
`check_for_balance_changes`: match the increase against the outstanding
expected withdrawal first (forwarding the matched portion), attribute any
remainder above the 0.1 rounding threshold to `pending_deposit`. -/
def classify_increase (s : MonState) (current_balance : ℚ) (fwd_ok : Bool) :
    MonState × List ℚ × ℚ :=
  if s.last_balance < current_balance then
    let increase := current_balance - s.last_balance
    let r :=
      if 0 < s.pending_withdrawal_amount then
        let withdrawal_match := min increase s.pending_withdrawal_amount
        if fwd_ok then
          (s.pending_withdrawal_amount - withdrawal_match,
            increase - withdrawal_match, [withdrawal_match])
        else (s.pending_withdrawal_amount, increase, [withdrawal_match])
      else (s.pending_withdrawal_amount, increase, ([] : List ℚ))
    let pd := if 1/10 < r.2.1 then s.pending_deposit + r.2.1 else s.pending_deposit
    ({ last_balance := current_balance, pending_deposit := pd,
       pending_withdrawal_amount := r.1 }, r.2.2, r.2.1)
  else
    ({ s with last_balance := current_balance }, [], 0)

/-- Embeds `VaultMonitor.check_for_balance_changes`: when an expected withdrawal
is outstanding and the wallet holds a non-trivial balance, first try to
forward up to the pending amount even without a fresh increase (restart
recovery); on success return early, on failure fall through to the
increase classification. -/
def check_for_balance_changes (s : MonState) (current_balance : ℚ)
    (fwd1_ok fwd2_ok : Bool) : MonState × List ℚ × ℚ :=
  if 0 < s.pending_withdrawal_amount ∧ 1/10 < current_balance then
    let amount_to_forward := min current_balance s.pending_withdrawal_amount
    if fwd1_ok then
      ({ last_balance := max 0 (current_balance - amount_to_forward),
         pending_deposit := s.pending_deposit,
         pending_withdrawal_amount :=
           s.pending_withdrawal_amount - amount_to_forward },
        [amount_to_forward], amount_to_forward)
    else
      let r := classify_increase s current_balance fwd2_ok
      (r.1, amount_to_forward :: r.2.1, r.2.2)
  else classify_increase s current_balance fwd2_ok

/-- One event processed by the monitor: an expected-withdrawal
registration, or one balance observation (with the forwarding
outcomes). -/
inductive MonEvent
  | expectWithdraw (amount : ℚ)
  | observe (current_balance : ℚ) (fwd1_ok fwd2_ok : Bool)
deriving Repr, DecidableEq

def monStep (s : MonState) : MonEvent → MonState
  | MonEvent.expectWithdraw a => expect_withdrawal s a
  | MonEvent.observe cur f1 f2 => (check_for_balance_changes s cur f1 f2).1

def monRun : MonState → List MonEvent → MonState
  | s, [] => s
  | s, e :: tr => monRun (monStep s e) tr

/-- The positive balance delta observed by one event. -/
def observedInflow (s : MonState) : MonEvent → ℚ
  | MonEvent.expectWithdraw _ => 0
  | MonEvent.observe cur _ _ => max 0 (cur - s.last_balance)

/-- Total observed positive balance deltas along a trace. -/
def totalInflow : MonState → List MonEvent → ℚ
  | _, [] => 0
  | s, e :: tr => observedInflow s e + totalInflow (monStep s e) tr

/-- The expected-withdrawal amount registered by one event. -/
def expectAmount : MonEvent → ℚ
  | MonEvent.expectWithdraw a => a
  | MonEvent.observe _ _ _ => 0

/-- Total expected-withdrawal registrations along a trace. -/
def totalExpected (tr : List MonEvent) : ℚ := (tr.map expectAmount).sum

/-- The fresh monitor state (nothing pending, no balance seen). -/
def monInit : MonState := ⟨0, 0, 0⟩

/-! ## Proofs -/

lemma is_safe_update_iff (s : NavState) (nav : ℚ) (hpos : 0 < s.last_nav) :
    is_safe_update s nav = true ↔ |nav - s.last_nav| / s.last_nav ≤ 1/20 := by
  unfold is_safe_update max_change_bps
  rw [if_neg (not_le.mpr hpos)]
  simp only [decide_eq_true_eq]
  have h : |nav - s.last_nav| * 10000 / s.last_nav
      = (|nav - s.last_nav| / s.last_nav) * 10000 := by ring
  rw [h]
  constructor <;> intro hle <;> linarith

/-- C1: with `last_nav > 0`, the scheduled reporter invokes the on-chain
NAV update only if `|nav − last_nav| / last_nav ≤ 1/20` (500 bps); when
the bound is exceeded no call occurs and `last_nav` is unchanged; when
`last_nav ≤ 0` any positive proposed value is reported (first report). -/
theorem nav_rate_limit (s : NavState) (nav : ℚ) (inv : Bool) :
    (0 < s.last_nav →
      ((report_nav s nav inv).calls ≠ [] → |nav - s.last_nav| / s.last_nav ≤ 1/20) ∧
      (1/20 < |nav - s.last_nav| / s.last_nav →
        (report_nav s nav inv).calls = [] ∧ (report_nav s nav inv).state = s)) ∧
    (s.last_nav ≤ 0 → 0 < nav → (report_nav s nav inv).calls = [nav]) := by
  constructor
  · intro hpos
    by_cases hneg : nav ≤ 0
    · unfold report_nav
      rw [if_pos hneg]
      refine ⟨fun h => absurd rfl h, fun hgt => ⟨rfl, rfl⟩⟩
    · by_cases hsafe : is_safe_update s nav = true
      · refine ⟨fun _ => (is_safe_update_iff s nav hpos).mp hsafe, fun hgt => ?_⟩
        exact absurd ((is_safe_update_iff s nav hpos).mp hsafe) (not_le.mpr hgt)
      · unfold report_nav
        rw [if_neg hneg, if_neg hsafe]
        exact ⟨fun h => absurd rfl h, fun _ => ⟨rfl, rfl⟩⟩
  · intro hle hpos
    have hsafe : is_safe_update s nav = true := by
      unfold is_safe_update; rw [if_pos hle]
    unfold report_nav
    rw [if_neg (not_le.mpr hpos), if_pos hsafe]
    cases inv <;> rfl

/-- Witness for C1 at `last_nav = 100`, proposed `nav = 110` (10% > 5%):
the update is skipped and the state is unchanged. -/
theorem nav_rate_limit_witness :
    (report_nav ⟨100⟩ 110 true).calls = [] ∧ (report_nav ⟨100⟩ 110 true).state = ⟨100⟩ :=
  ((nav_rate_limit ⟨100⟩ 110 true).1 (by norm_num)).2 (by norm_num)

/-- C4 counterexample: `force_update` does not apply the rate limit.
With `last_nav = 100` and forced `nav = 200` (100% change, far above the
5% bound) the on-chain `update_nav` call happens and `last_nav` becomes
200, contradicting the claim that the force path never bypasses the
rate-limit. -/
theorem force_update_rate_limit_cex :
    1/20 < |(200 : ℚ) - 100| / 100 ∧
    (force_update ⟨100⟩ 200 true).calls = [200] ∧
    (force_update ⟨100⟩ 200 true).state.last_nav = 200 := by
  refine ⟨by norm_num, ?_, ?_⟩ <;> decide

/-- C4 amended: `force_update` bypasses both the scheduling cadence and
the rate limit — for every state and every forced value `nav > 0` it
performs the on-chain NAV update regardless of the distance to
`last_nav` (only `nav ≤ 0` is rejected), and on invocation success it
sets `last_nav := nav`. -/
theorem force_update_no_rate_limit (s : NavState) (nav : ℚ) (inv : Bool)
    (hpos : 0 < nav) :
    (force_update s nav inv).calls = [nav] ∧
    (inv = true → (force_update s nav inv).state.last_nav = nav) ∧
    (force_update s nav false).state = s := by
  unfold force_update
  rw [if_neg (not_le.mpr hpos), if_neg (not_le.mpr hpos)]
  cases inv <;> simp

/-- Witness for the amended C4 at `last_nav = 100`, `nav = 200`. -/
theorem force_update_no_rate_limit_witness :
    (force_update ⟨100⟩ 200 true).calls = [200] ∧
    (true = true → (force_update ⟨100⟩ 200 true).state.last_nav = 200) ∧
    (force_update ⟨100⟩ 200 false).state = ⟨100⟩ :=
  force_update_no_rate_limit ⟨100⟩ 200 true (by norm_num)

/-- C8 counterexample: with the latch set and funding rate
`-0.00005` — still negative, hence not "turned positive" — the manager
clears the flag, contradicting the claim that the flag is cleared exactly
when funding turns positive again. -/
theorem funding_latch_cex :
    check_funding_rate true (-1/20000) = ⟨false, false⟩ ∧ ¬((0 : ℚ) < -1/20000) := by
  constructor
  · norm_num [check_funding_rate, negative_funding_threshold]
  · norm_num

/-- C8 amended: whenever funding drops below the negative threshold
(−0.0001) with the latch unset, the manager closes all hedge exposure and
sets the flag; while the flag is set no repeated close is issued; and the
flag is cleared exactly when funding rises back to at least the negative
threshold (which includes small negative rates and zero, not only
strictly positive funding). -/
theorem funding_latch (flag : Bool) (funding : ℚ) :
    ((check_funding_rate flag funding).closed = true ↔
      funding < negative_funding_threshold ∧ flag = false) ∧
    ((check_funding_rate flag funding).flag = true ↔
      funding < negative_funding_threshold) := by
  unfold check_funding_rate
  by_cases h : funding < negative_funding_threshold <;> cases flag <;> simp [h]

lemma isRebalance_rest (st : StrategyState) (o c l : ℚ) :
    isRebalance (execute_strategy_rest st o c l) = false := by
  unfold execute_strategy_rest
  by_cases h1 : should_open_position st.funding_rate st.has_position o = true
  · simp [h1, isRebalance]
  · by_cases h2 : should_close_position st.funding_rate st.has_position c = true <;>
      simp [h1, h2, isRebalance]

lemma rest_ne_up (st : StrategyState) (o c l adj : ℚ) :
    execute_strategy_rest st o c l ≠ StrategyAction.rebalanceShortUp adj := by
  intro h
  have hr := isRebalance_rest st o c l
  rw [h] at hr
  exact Bool.noConfusion hr

lemma rest_ne_down (st : StrategyState) (o c l adj btc : ℚ) :
    execute_strategy_rest st o c l ≠ StrategyAction.rebalanceShortDown adj btc := by
  intro h
  have hr := isRebalance_rest st o c l
  rw [h] at hr
  exact Bool.noConfusion hr

/-- C7: the strategy takes a rebalance action iff `|delta|` exceeds the
5% band, the risk-asset value is positive, and the signed difference
`wbtc_value_usd − position_value` exceeds $10 in magnitude; the short is
increased by the difference when net-long and decreased when net-short;
and in the spec scenario (risk-asset value $100, hedge $80, NAV $180,
delta = 1/9) the hedge is increased by $20. -/
theorem delta_rebalance_band (st : StrategyState) (o c l price : ℚ) :
    (isRebalance (execute_strategy st o c l price) = true ↔
      1/20 < |st.delta| ∧ 0 < st.wbtc_value_usd ∧
        10 < |st.wbtc_value_usd - st.position_value|) ∧
    (execute_strategy st o c l price =
        StrategyAction.rebalanceShortUp (st.wbtc_value_usd - st.position_value) ↔
      1/20 < |st.delta| ∧ 0 < st.wbtc_value_usd ∧
        10 < st.wbtc_value_usd - st.position_value) ∧
    (execute_strategy st o c l price =
        StrategyAction.rebalanceShortDown (st.wbtc_value_usd - st.position_value)
          (|st.wbtc_value_usd - st.position_value| / price) ↔
      1/20 < |st.delta| ∧ 0 < st.wbtc_value_usd ∧
        st.wbtc_value_usd - st.position_value < -10) ∧
    execute_strategy scenarioState (1/1000000) (-1/1000000) 2 100000 =
      StrategyAction.rebalanceShortUp 20 := by
  have hth : delta_threshold = (1/20 : ℚ) := rfl
  set a := st.wbtc_value_usd - st.position_value with ha
  have hsc : execute_strategy scenarioState (1/1000000) (-1/1000000) 2 100000 =
      StrategyAction.rebalanceShortUp 20 := by
    norm_num [execute_strategy, scenarioState, mkStrategyState, delta_threshold]
    intro h
    rw [show |(1:ℚ)/9| = 1/9 from abs_of_pos (by norm_num)] at h
    norm_num at h
  by_cases h1 : delta_threshold < |st.delta| ∧ 0 < st.wbtc_value_usd
  · have h1n : (1/20 : ℚ) < |st.delta| := hth ▸ h1.1
    by_cases h2 : 10 < a
    · have h3 : ¬ a < -10 := by push_neg; linarith
      have habs : 10 < |a| := lt_of_lt_of_le h2 (le_abs_self a)
      unfold execute_strategy
      rw [if_pos h1, ← ha, if_pos h2]
      refine ⟨?_, ?_, ?_, hsc⟩
      · simp only [isRebalance, true_iff]
        exact ⟨h1n, h1.2, habs⟩
      · constructor
        · intro _; exact ⟨h1n, h1.2, h2⟩
        · intro _; rfl
      · constructor
        · intro h; exact StrategyAction.noConfusion h
        · rintro ⟨-, -, h⟩; exact absurd h h3
    · by_cases h3 : a < -10
      · have habs : 10 < |a| := by
          rw [abs_of_neg (by linarith : a < 0)]; linarith
        unfold execute_strategy
        rw [if_pos h1, ← ha, if_neg h2, if_pos h3]
        refine ⟨?_, ?_, ?_, hsc⟩
        · simp only [isRebalance, true_iff]
          exact ⟨h1n, h1.2, habs⟩
        · constructor
          · intro h; exact StrategyAction.noConfusion h
          · rintro ⟨-, -, h⟩; exact absurd h h2
        · constructor
          · intro _; exact ⟨h1n, h1.2, h3⟩
          · intro _; rfl
      · have habs : ¬ 10 < |a| := by
          push_neg at h2 h3 ⊢
          rw [abs_le]; exact ⟨by linarith, h2⟩
        unfold execute_strategy
        rw [if_pos h1, ← ha, if_neg h2, if_neg h3]
        refine ⟨?_, ?_, ?_, hsc⟩
        · rw [isRebalance_rest]
          constructor
          · intro h; exact Bool.noConfusion h
          · rintro ⟨-, -, h⟩; exact absurd h habs
        · constructor
          · intro h; exact absurd h (rest_ne_up st _ _ _ _)
          · rintro ⟨-, -, h⟩; exact absurd h h2
        · constructor
          · intro h; exact absurd h (rest_ne_down st _ _ _ _ _)
          · rintro ⟨-, -, h⟩; exact absurd h h3
  · unfold execute_strategy
    rw [if_neg h1]
    rw [hth] at h1
    refine ⟨?_, ?_, ?_, hsc⟩
    · rw [isRebalance_rest]
      constructor
      · intro h; exact Bool.noConfusion h
      · rintro ⟨hx, hy, -⟩; exact absurd ⟨hx, hy⟩ h1
    · constructor
      · intro h; exact absurd h (rest_ne_up st _ _ _ _)
      · rintro ⟨hx, hy, -⟩; exact absurd ⟨hx, hy⟩ h1
    · constructor
      · intro h; exact absurd h (rest_ne_down st _ _ _ _ _)
      · rintro ⟨hx, hy, -⟩; exact absurd ⟨hx, hy⟩ h1

lemma hasKey_dictSet (m : ProcMap) (j i : Nat) (e : ProcEntry) :
    hasKey (dictSet m j e) i = (j == i || hasKey m i) := by
  induction m with
  | nil => simp [dictSet, hasKey]
  | cons p rest ih =>
    by_cases h : p.1 = j
    · simp only [dictSet, if_pos h, hasKey, h]
      cases hji : (j == i) <;> simp [hji]
    · simp only [dictSet, if_neg h, hasKey, ih]
      cases hji : (j == i) <;> cases hpi : (p.1 == i) <;> simp [hji, hpi]

lemma hasKey_dictDel_self (m : ProcMap) (j : Nat) :
    hasKey (dictDel m j) j = false := by
  induction m with
  | nil => rfl
  | cons p rest ih =>
    by_cases h : p.1 = j
    · simp [dictDel, if_pos h, ih]
    · simp [dictDel, if_neg h, hasKey, ih, h]

lemma hasKey_dictDel_ne (m : ProcMap) (j i : Nat) (hne : j ≠ i) :
    hasKey (dictDel m j) i = hasKey m i := by
  induction m with
  | nil => rfl
  | cons p rest ih =>
    by_cases h : p.1 = j
    · have hpi : (p.1 == i) = false := by simp [h, hne]
      simp [dictDel, if_pos h, ih, hasKey, hpi]
    · simp [dictDel, if_neg h, hasKey, ih]

lemma mlookup_dictSet_self (m : ProcMap) (j : Nat) (e : ProcEntry) :
    mlookup (dictSet m j e) j = some e := by
  induction m with
  | nil => simp [dictSet, mlookup]
  | cons p rest ih =>
    by_cases h : p.1 = j
    · simp [dictSet, if_pos h, mlookup]
    · simp [dictSet, if_neg h, mlookup, h, ih]

lemma mlookup_dictSet_ne (m : ProcMap) (j i : Nat) (e : ProcEntry) (h : i ≠ j) :
    mlookup (dictSet m j e) i = mlookup m i := by
  have hji : ¬ (j = i) := fun hh => h hh.symm
  induction m with
  | nil => simp [dictSet, mlookup, hji]
  | cons p rest ih =>
    by_cases hp : p.1 = j
    · simp only [dictSet, if_pos hp, mlookup]
      rw [if_neg hji, if_neg (hp ▸ hji)]
    · simp only [dictSet, if_neg hp, mlookup, ih]

lemma mlookup_dictDel_ne (m : ProcMap) (j i : Nat) (h : i ≠ j) :
    mlookup (dictDel m j) i = mlookup m i := by
  have hji : ¬ (j = i) := fun hh => h hh.symm
  induction m with
  | nil => simp [dictDel]
  | cons p rest ih =>
    by_cases hp : p.1 = j
    · simp only [dictDel, if_pos hp, ih, mlookup]
      rw [if_neg (hp ▸ hji)]
    · simp only [dictDel, if_neg hp, mlookup, ih]

lemma mem_keys_dictSet (m : ProcMap) (j i : Nat) (e : ProcEntry) :
    i ∈ (dictSet m j e).map Prod.fst ↔ i = j ∨ i ∈ m.map Prod.fst := by
  induction m with
  | nil => simp [dictSet]
  | cons p rest ih =>
    by_cases h : p.1 = j
    · simp only [dictSet, if_pos h, List.map_cons, List.mem_cons]
      constructor
      · rintro (h1 | h2)
        · exact Or.inl h1
        · exact Or.inr (Or.inr h2)
      · rintro (h1 | h2 | h3)
        · exact Or.inl h1
        · exact Or.inl (h ▸ h2)
        · exact Or.inr h3
    · simp only [dictSet, if_neg h, List.map_cons, List.mem_cons, ih]
      tauto

lemma keysNodup_dictSet (m : ProcMap) (j : Nat) (e : ProcEntry)
    (hm : keysNodup m) : keysNodup (dictSet m j e) := by
  induction m with
  | nil => simp [dictSet, keysNodup]
  | cons p rest ih =>
    unfold keysNodup at hm ⊢
    simp only [List.map_cons, List.nodup_cons] at hm
    by_cases h : p.1 = j
    · simp only [dictSet, if_pos h, List.map_cons, List.nodup_cons]
      exact ⟨h ▸ hm.1, hm.2⟩
    · simp only [dictSet, if_neg h, List.map_cons, List.nodup_cons]
      refine ⟨?_, ih hm.2⟩
      intro hmem
      rcases (mem_keys_dictSet rest j p.1 e).mp hmem with h1 | h2
      · exact h h1
      · exact hm.1 h2

lemma dictDel_sublist (m : ProcMap) (j : Nat) : (dictDel m j).Sublist m := by
  induction m with
  | nil => simp [dictDel]
  | cons p rest ih =>
    by_cases h : p.1 = j
    · simp only [dictDel, if_pos h]
      exact ih.trans (List.sublist_cons_self p rest)
    · simp only [dictDel, if_neg h]
      exact ih.cons₂ p

lemma keysNodup_dictDel (m : ProcMap) (j : Nat) (hm : keysNodup m) :
    keysNodup (dictDel m j) := by
  exact hm.sublist ((dictDel_sublist m j).map Prod.fst)

lemma hasKey_iff_mem_keys (m : ProcMap) (i : Nat) :
    hasKey m i = true ↔ i ∈ m.map Prod.fst := by
  induction m with
  | nil => simp [hasKey]
  | cons p rest ih =>
    simp only [hasKey, List.map_cons, List.mem_cons, Bool.or_eq_true, beq_iff_eq, ih]
    tauto

lemma mlookup_eq_some_mem (m : ProcMap) (i : Nat) (e : ProcEntry)
    (h : mlookup m i = some e) : (i, e) ∈ m := by
  induction m with
  | nil => simp [mlookup] at h
  | cons p rest ih =>
    obtain ⟨p1, p2⟩ := p
    by_cases hp : p1 = i
    · simp only [mlookup, if_pos hp] at h
      injection h with h2
      subst hp
      subst h2
      exact List.mem_cons_self _ _
    · simp only [mlookup, if_neg hp] at h
      exact List.mem_cons_of_mem _ (ih h)

lemma mem_mlookup_of_nodup (m : ProcMap) (i : Nat) (e : ProcEntry)
    (hm : keysNodup m) (h : (i, e) ∈ m) : mlookup m i = some e := by
  induction m with
  | nil => simp at h
  | cons p rest ih =>
    unfold keysNodup at hm
    simp only [List.map_cons, List.nodup_cons] at hm
    rcases List.mem_cons.mp h with h1 | h2
    · rw [← h1]
      simp [mlookup]
    · have hne : p.1 ≠ i := by
        intro heq
        exact hm.1 (heq ▸ (List.mem_map_of_mem Prod.fst h2))
      simp only [mlookup, if_neg hne]
      exact ih hm.2 h2

lemma start_processing_events (m : ProcMap) (id : Nat) (v : ℚ) (ok : Bool) :
    (start_processing m id v ok).2 =
      if v ≤ 0 then [] else [WEvent.requestWithdrawExchange id (v/2)] := by
  unfold start_processing
  by_cases h : v ≤ 0
  · simp [h]
  · cases ok <;> simp [h]

lemma startsFor_start_processing (m : ProcMap) (id i : Nat) (v : ℚ) (ok : Bool) :
    startsFor (start_processing m id v ok).2 i = 0 := by
  rw [startsFor, start_processing_events]
  by_cases h : v ≤ 0 <;> simp [h, isStartOf]

lemma start_processing_map_nonpos (m : ProcMap) (id : Nat) (v : ℚ) (ok : Bool)
    (hv : v ≤ 0) : (start_processing m id v ok).1 = m := by
  simp [start_processing, hv]

lemma start_processing_map_false (m : ProcMap) (id : Nat) (v : ℚ)
    (hv : ¬ v ≤ 0) :
    (start_processing m id v false).1 =
      dictDel (dictSet m id ⟨v/2, WStep.closing_position⟩) id := by
  simp [start_processing, hv]

lemma start_processing_map_true (m : ProcMap) (id : Nat) (v : ℚ)
    (hv : ¬ v ≤ 0) :
    (start_processing m id v true).1 =
      dictSet (dictSet m id ⟨v/2, WStep.closing_position⟩) id
        ⟨v/2, WStep.waiting_usdc⟩ := by
  simp [start_processing, hv]

lemma hasKey_start_processing_ne (m : ProcMap) (id : Nat) (v : ℚ) (ok : Bool)
    (i : Nat) (h : i ≠ id) :
    hasKey (start_processing m id v ok).1 i = hasKey m i := by
  have hid : id ≠ i := fun hh => h hh.symm
  have hne : (id == i) = false := by simp [hid]
  by_cases hv : v ≤ 0
  · rw [start_processing_map_nonpos _ _ _ _ hv]
  · cases ok
    · rw [start_processing_map_false _ _ _ hv, hasKey_dictDel_ne _ _ _ hid,
        hasKey_dictSet, hne]
      simp
    · rw [start_processing_map_true _ _ _ hv, hasKey_dictSet, hasKey_dictSet, hne]
      simp

lemma keysNodup_start_processing (m : ProcMap) (id : Nat) (v : ℚ) (ok : Bool)
    (hm : keysNodup m) : keysNodup (start_processing m id v ok).1 := by
  by_cases hv : v ≤ 0
  · rw [start_processing_map_nonpos _ _ _ _ hv]; exact hm
  · cases ok
    · rw [start_processing_map_false _ _ _ hv]
      exact keysNodup_dictDel _ _ (keysNodup_dictSet _ _ _ hm)
    · rw [start_processing_map_true _ _ _ hv]
      exact keysNodup_dictSet _ _ _ (keysNodup_dictSet _ _ _ hm)

lemma mlookup_start_processing_ok (m : ProcMap) (id : Nat) (v : ℚ)
    (hv : 0 < v) :
    mlookup (start_processing m id v true).1 id =
      some ⟨v/2, WStep.waiting_usdc⟩ := by
  rw [start_processing_map_true _ _ _ (not_le.mpr hv)]
  exact mlookup_dictSet_self _ _ _

lemma hasKey_start_processing_fail (m : ProcMap) (id : Nat) (v : ℚ)
    (hm : hasKey m id = false) :
    hasKey (start_processing m id v false).1 id = false := by
  by_cases hv : v ≤ 0
  · rw [start_processing_map_nonpos _ _ _ _ hv]; exact hm
  · rw [start_processing_map_false _ _ _ hv]
    exact hasKey_dictDel_self _ _

lemma scan_ids_not_mem (q : Nat → Option WithdrawalQueueItem)
    (preview : Nat → ℚ) (wOk : Nat → Bool) (ids : List Nat) (i : Nat)
    (hni : i ∉ ids) :
    ∀ m, hasKey (scan_ids q preview wOk m ids).1 i = hasKey m i ∧
      startsFor (scan_ids q preview wOk m ids).2 i = 0 := by
  induction ids with
  | nil => intro m; exact ⟨rfl, rfl⟩
  | cons id rest ih =>
    have hne : i ≠ id := fun hh => hni (hh ▸ List.mem_cons_self id rest)
    have hsym : id ≠ i := fun hh => hne hh.symm
    have hne2 : (id == i) = false := by simp [hsym]
    have hrest : i ∉ rest := fun hh => hni (List.mem_cons_of_mem _ hh)
    intro m
    cases hq : q id with
    | none => simpa only [scan_ids, hq] using ih hrest m
    | some w =>
      by_cases hst : w.status = WithdrawalStatus.PENDING
      · by_cases hk : hasKey m id = true
        · simp only [scan_ids, hq, if_pos hst, if_pos hk]
          exact ih hrest m
        · simp only [scan_ids, hq, if_pos hst, if_neg hk]
          constructor
          · rw [(ih hrest _).1, hasKey_start_processing_ne _ _ _ _ _ hne]
          · rw [startsFor, List.countP_cons, List.countP_append]
            have h1 := startsFor_start_processing m id i (preview w.shares) (wOk id)
            have h2 := (ih hrest (start_processing m id (preview w.shares) (wOk id)).1).2
            rw [startsFor] at h1 h2
            rw [h1, h2]
            simp [isStartOf, hne2]
      · simp only [scan_ids, hq, if_neg hst]
        exact ih hrest m

lemma scan_ids_haskey_preserved (q : Nat → Option WithdrawalQueueItem)
    (preview : Nat → ℚ) (wOk : Nat → Bool) (ids : List Nat) (i : Nat) :
    ∀ m, hasKey m i = true →
      hasKey (scan_ids q preview wOk m ids).1 i = true ∧
      startsFor (scan_ids q preview wOk m ids).2 i = 0 := by
  induction ids with
  | nil => intro m h; exact ⟨h, rfl⟩
  | cons id rest ih =>
    intro m h
    cases hq : q id with
    | none => simpa only [scan_ids, hq] using ih m h
    | some w =>
      by_cases hst : w.status = WithdrawalStatus.PENDING
      · by_cases hk : hasKey m id = true
        · simp only [scan_ids, hq, if_pos hst, if_pos hk]
          exact ih m h
        · have hne : i ≠ id := fun hh => hk (hh ▸ h)
          have hsym : id ≠ i := fun hh => hne hh.symm
          have hne2 : (id == i) = false := by simp [hsym]
          simp only [scan_ids, hq, if_pos hst, if_neg hk]
          have hk2 : hasKey (start_processing m id (preview w.shares) (wOk id)).1 i
              = true := by
            rw [hasKey_start_processing_ne _ _ _ _ _ hne]; exact h
          refine ⟨(ih _ hk2).1, ?_⟩
          rw [startsFor, List.countP_cons, List.countP_append]
          have h1 := startsFor_start_processing m id i (preview w.shares) (wOk id)
          have h2 := (ih _ hk2).2
          rw [startsFor] at h1 h2
          rw [h1, h2]
          simp [isStartOf, hne2]
      · simp only [scan_ids, hq, if_neg hst]
        exact ih m h

lemma scan_ids_count_one (q : Nat → Option WithdrawalQueueItem)
    (preview : Nat → ℚ) (wOk : Nat → Bool) (i : Nat) (w : WithdrawalQueueItem)
    (hq : q i = some w) (hst : w.status = WithdrawalStatus.PENDING) :
    ∀ ids : List Nat, ids.Nodup → i ∈ ids →
      ∀ m, hasKey m i = false →
        startsFor (scan_ids q preview wOk m ids).2 i = 1 := by
  intro ids
  induction ids with
  | nil => intro _ hmem; cases hmem
  | cons id rest ih =>
    intro hnd hmem m hk
    obtain ⟨hnotin, hnd2⟩ := List.nodup_cons.mp hnd
    rcases List.mem_cons.mp hmem with hi | hi
    · subst hi
      have hcond : ¬ (hasKey m i = true) := by simp [hk]
      simp only [scan_ids, hq, if_pos hst, if_neg hcond]
      rw [startsFor, List.countP_cons, List.countP_append]
      have h1 := startsFor_start_processing m i i (preview w.shares) (wOk i)
      have h2 := (scan_ids_not_mem q preview wOk rest i hnotin
        (start_processing m i (preview w.shares) (wOk i)).1).2
      rw [startsFor] at h1 h2
      rw [h1, h2]
      simp [isStartOf]
    · have hne : i ≠ id := fun hh => hnotin (hh ▸ hi)
      have hsym : id ≠ i := fun hh => hne hh.symm
      have hne2 : (id == i) = false := by simp [hsym]
      cases hqid : q id with
      | none =>
        simp only [scan_ids, hqid]
        exact ih hnd2 hi m hk
      | some w2 =>
        by_cases hst2 : w2.status = WithdrawalStatus.PENDING
        · by_cases hk2 : hasKey m id = true
          · simp only [scan_ids, hqid, if_pos hst2, if_pos hk2]
            exact ih hnd2 hi m hk
          · simp only [scan_ids, hqid, if_pos hst2, if_neg hk2]
            have hk3 : hasKey (start_processing m id (preview w2.shares) (wOk id)).1 i
                = false := by
              rw [hasKey_start_processing_ne _ _ _ _ _ hne]; exact hk
            rw [startsFor, List.countP_cons, List.countP_append]
            have h1 := startsFor_start_processing m id i (preview w2.shares) (wOk id)
            have h2 := ih hnd2 hi _ hk3
            rw [startsFor] at h1 h2
            rw [h1, h2]
            simp [isStartOf, hne2]
        · simp only [scan_ids, hqid, if_neg hst2]
          exact ih hnd2 hi m hk

lemma scan_ids_keysNodup (q : Nat → Option WithdrawalQueueItem)
    (preview : Nat → ℚ) (wOk : Nat → Bool) (ids : List Nat) :
    ∀ m, keysNodup m → keysNodup (scan_ids q preview wOk m ids).1 := by
  induction ids with
  | nil => intro m hm; exact hm
  | cons id rest ih =>
    intro m hm
    cases hq : q id with
    | none => simpa only [scan_ids, hq] using ih m hm
    | some w =>
      by_cases hst : w.status = WithdrawalStatus.PENDING
      · by_cases hk : hasKey m id = true
        · simp only [scan_ids, hq, if_pos hst, if_pos hk]
          exact ih m hm
        · simp only [scan_ids, hq, if_pos hst, if_neg hk]
          exact ih _ (keysNodup_start_processing _ _ _ _ hm)
      · simp only [scan_ids, hq, if_neg hst]
        exact ih m hm

lemma complete_processing_success (id : Nat) (e : ProcEntry) (fo mo : Bool) :
    (complete_processing id e fo mo).1 = (fo && mo) := by
  cases fo <;> cases mo <;> simp [complete_processing]

lemma complete_processing_forward_mem (j : Nat) (e : ProcEntry) (fo mo : Bool)
    (amt : ℚ) (h : WEvent.forwardToVault amt ∈ (complete_processing j e fo mo).2) :
    amt = e.usdc_value := by
  cases fo <;> cases mo <;> simpa [complete_processing] using h

lemma complete_processing_mark_mem (j : Nat) (e : ProcEntry) (fo mo : Bool)
    (i : Nat) (amt : ℤ)
    (h : WEvent.markReady i amt ∈ (complete_processing j e fo mo).2) :
    i = j ∧ amt = Int.floor (e.usdc_value * 1000000) ∧ fo = true := by
  cases fo <;> cases mo <;> simpa [complete_processing] using h

lemma mem_check_entries (b : ℚ) (f g : Nat → Bool)
    (m : List (Nat × ProcEntry)) (i : Nat) :
    i ∈ (check_entries b f g m).1 ↔
      ∃ e, (i, e) ∈ m ∧ e.step = WStep.waiting_usdc ∧ e.usdc_value ≤ b ∧
        f i = true ∧ g i = true := by
  induction m with
  | nil => simp [check_entries]
  | cons p rest ih =>
    obtain ⟨pid, pe⟩ := p
    by_cases hc : pe.step = WStep.waiting_usdc ∧ pe.usdc_value ≤ b
    · simp only [check_entries, if_pos hc]
      by_cases hs : (complete_processing pid pe (f pid) (g pid)).1 = true
      · have hs2 := hs
        rw [complete_processing_success] at hs2
        obtain ⟨hf, hg⟩ : f pid = true ∧ g pid = true := by simpa using hs2
        rw [if_pos hs]
        simp only [List.mem_cons]
        constructor
        · rintro (h1 | h2)
          · subst h1
            exact ⟨pe, Or.inl rfl, hc.1, hc.2, hf, hg⟩
          · obtain ⟨e, he, h3, h4, h5, h6⟩ := ih.mp h2
            exact ⟨e, Or.inr he, h3, h4, h5, h6⟩
        · rintro ⟨e, he, h3, h4, h5, h6⟩
          rcases he with he1 | he1
          · injection he1 with hi1 hi2
            exact Or.inl hi1
          · exact Or.inr (ih.mpr ⟨e, he1, h3, h4, h5, h6⟩)
      · rw [if_neg hs]
        rw [ih]
        constructor
        · rintro ⟨e, he, h3, h4, h5, h6⟩
          exact ⟨e, List.mem_cons_of_mem _ he, h3, h4, h5, h6⟩
        · rintro ⟨e, he, h3, h4, h5, h6⟩
          rcases List.mem_cons.mp he with he1 | he1
          · injection he1 with hi1 hi2
            subst hi1
            subst hi2
            have hcp : (complete_processing i e (f i) (g i)).1 = true := by
              rw [complete_processing_success, h5, h6]
              rfl
            exact absurd hcp hs
          · exact ⟨e, he1, h3, h4, h5, h6⟩
    · simp only [check_entries, if_neg hc]
      rw [ih]
      constructor
      · rintro ⟨e, he, h3, h4, h5, h6⟩
        exact ⟨e, List.mem_cons_of_mem _ he, h3, h4, h5, h6⟩
      · rintro ⟨e, he, h3, h4, h5, h6⟩
        rcases List.mem_cons.mp he with he1 | he1
        · injection he1 with hi1 hi2
          subst hi1
          subst hi2
          exact absurd ⟨h3, h4⟩ hc
        · exact ⟨e, he1, h3, h4, h5, h6⟩

lemma check_entries_events (b : ℚ) (f g : Nat → Bool)
    (m : List (Nat × ProcEntry)) (ev : WEvent)
    (h : ev ∈ (check_entries b f g m).2) :
    ∃ j e, (j, e) ∈ m ∧ e.step = WStep.waiting_usdc ∧ e.usdc_value ≤ b ∧
      ev ∈ (complete_processing j e (f j) (g j)).2 := by
  induction m with
  | nil => simp [check_entries] at h
  | cons p rest ih =>
    by_cases hc : p.2.step = WStep.waiting_usdc ∧ p.2.usdc_value ≤ b
    · rw [check_entries] at h
      rw [if_pos hc] at h
      rcases List.mem_append.mp h with h1 | h2
      · exact ⟨p.1, p.2, List.mem_cons_self _ _, hc.1, hc.2, h1⟩
      · obtain ⟨j, e, he, h3, h4, h5⟩ := ih h2
        exact ⟨j, e, List.mem_cons_of_mem _ he, h3, h4, h5⟩
    · rw [check_entries] at h
      rw [if_neg hc] at h
      obtain ⟨j, e, he, h3, h4, h5⟩ := ih h
      exact ⟨j, e, List.mem_cons_of_mem _ he, h3, h4, h5⟩

lemma hasKey_foldl_dictDel (l : List Nat) :
    ∀ (m : ProcMap) (i : Nat),
      hasKey (l.foldl dictDel m) i = (hasKey m i && !(decide (i ∈ l))) := by
  induction l with
  | nil => intro m i; simp
  | cons a l ih =>
    intro m i
    rw [List.foldl_cons, ih]
    by_cases h : a = i
    · subst h
      rw [hasKey_dictDel_self]
      simp
    · rw [hasKey_dictDel_ne _ _ _ h]
      have h2 : ¬ i = a := fun hh => h hh.symm
      simp [List.mem_cons, h2]

lemma mlookup_foldl_dictDel_not_mem (l : List Nat) :
    ∀ (m : ProcMap) (i : Nat), i ∉ l →
      mlookup (l.foldl dictDel m) i = mlookup m i := by
  induction l with
  | nil => intro m i _; rfl
  | cons a l ih =>
    intro m i hi
    rw [List.foldl_cons, ih _ _ (fun hh => hi (List.mem_cons_of_mem _ hh)),
      mlookup_dictDel_ne _ _ _ (fun hh : i = a => hi (hh ▸ List.mem_cons_self a l))]

/-- C2: withdrawal dedup.  The tracking dict keeps at most one entry per
request id (duplicate-free keys are preserved by a scan tick); a scan
never starts processing an id that is already tracked; and when a PENDING
request is started during one scan and its entry is still present, a
second scan of the same queue starts it zero further times — exactly one
start across the two observations of the same PENDING request. -/
theorem withdrawal_dedup (m : ProcMap) (q : Nat → Option WithdrawalQueueItem)
    (qlen : Nat) (preview preview2 : Nat → ℚ) (wOk wOk2 : Nat → Bool)
    (id : Nat) (w : WithdrawalQueueItem) :
    (keysNodup m → keysNodup (process_pending_withdrawals m q qlen preview wOk).1) ∧
    (hasKey m id = true →
      startsFor (process_pending_withdrawals m q qlen preview wOk).2 id = 0) ∧
    (hasKey m id = false → id < qlen → q id = some w →
      w.status = WithdrawalStatus.PENDING →
      startsFor (process_pending_withdrawals m q qlen preview wOk).2 id = 1 ∧
      (hasKey (process_pending_withdrawals m q qlen preview wOk).1 id = true →
        startsFor (process_pending_withdrawals
          (process_pending_withdrawals m q qlen preview wOk).1
          q qlen preview2 wOk2).2 id = 0)) := by
  refine ⟨?_, ?_, ?_⟩
  · exact fun hm => scan_ids_keysNodup q preview wOk _ m hm
  · intro h
    exact (scan_ids_haskey_preserved q preview wOk _ id m h).2
  · intro hk hlt hq hst
    constructor
    · exact scan_ids_count_one q preview wOk id w hq hst _
        (List.nodup_range qlen) (List.mem_range.mpr hlt) m hk
    · intro h2
      exact (scan_ids_haskey_preserved q preview2 wOk2 _ id _ h2).2

/-- Witness for C2: queue of length 1 whose request 0 is PENDING and
valued 500; the first scan starts it once, the second scan (entry now
tracked) starts it zero times. -/
theorem withdrawal_dedup_witness :
    startsFor (process_pending_withdrawals [] exampleWithdrawQueue 1
      (fun _ => 500) (fun _ => true)).2 0 = 1 ∧
    startsFor (process_pending_withdrawals
      (process_pending_withdrawals [] exampleWithdrawQueue 1
        (fun _ => 500) (fun _ => true)).1
      exampleWithdrawQueue 1 (fun _ => 500) (fun _ => true)).2 0 = 0 := by
  have h := (withdrawal_dedup [] exampleWithdrawQueue 1 (fun _ => 500)
    (fun _ => 500) (fun _ => true) (fun _ => true) 0
    ⟨100, WithdrawalStatus.PENDING⟩).2.2 rfl (by norm_num) rfl rfl
  refine ⟨h.1, h.2 ?_⟩
  norm_num [process_pending_withdrawals, List.range_succ, scan_ids,
    exampleWithdrawQueue, start_processing, dictSet, hasKey]

/-- C5 counterexample: with the due amount available (balance 250) but
the forward-to-vault step failing, the completion attempt fails — the
trace shows the attempted forward and no `mark_withdrawal_ready` — yet
the entry is NOT cleared from the de-duplication set, contradicting the
claim that every failure before full success clears the entry.  The next
tick retries from the forwarding step, not from the closing-position
step. -/
theorem processing_entry_removal_cex :
    (check_processing_withdrawals cexProcMap 250 (fun _ => false)
      (fun _ => true)).2 = [WEvent.forwardToVault 250] ∧
    hasKey (check_processing_withdrawals cexProcMap 250 (fun _ => false)
      (fun _ => true)).1 2 = true := by
  constructor
  · norm_num [check_processing_withdrawals, check_entries, cexProcMap,
      complete_processing]
  · norm_num [check_processing_withdrawals, check_entries, cexProcMap,
      complete_processing, hasKey, dictDel]

/-- C5 amended: an entry is removed from the set by the completion tick
exactly when the forward-and-mark-ready step fully succeeds (waiting
step, balance reached, forward succeeded, mark-ready succeeded); a
failure while starting (failed exchange-withdrawal request) clears the
entry so the next tick retries from the closing-position step; but a
failure of the forward-and-mark-ready step itself leaves the entry in the
set unchanged at the waiting step, so the next tick retries only the
forward-and-mark-ready step. -/
theorem processing_entry_removal (m : ProcMap) (b : ℚ) (f g : Nat → Bool)
    (i : Nat) (v : ℚ) :
    (keysNodup m → hasKey m i = true →
      (hasKey (check_processing_withdrawals m b f g).1 i = false ↔
        ∃ e, mlookup m i = some e ∧ e.step = WStep.waiting_usdc ∧
          e.usdc_value ≤ b ∧ f i = true ∧ g i = true)) ∧
    (hasKey m i = false →
      hasKey (start_processing m i v false).1 i = false) ∧
    (∀ e, keysNodup m → mlookup m i = some e →
      ¬(e.usdc_value ≤ b ∧ f i = true ∧ g i = true) →
      mlookup (check_processing_withdrawals m b f g).1 i = some e) := by
  refine ⟨?_, ?_, ?_⟩
  · intro hm hk
    show (hasKey ((check_entries b f g m).1.foldl dictDel m) i = false ↔ _)
    rw [hasKey_foldl_dictDel, hk]
    simp only [Bool.true_and, Bool.not_eq_false', decide_eq_true_eq]
    rw [mem_check_entries]
    constructor
    · rintro ⟨e, he, h3, h4, h5, h6⟩
      exact ⟨e, mem_mlookup_of_nodup m i e hm he, h3, h4, h5, h6⟩
    · rintro ⟨e, he, h3, h4, h5, h6⟩
      exact ⟨e, mlookup_eq_some_mem m i e he, h3, h4, h5, h6⟩
  · intro hk
    exact hasKey_start_processing_fail m i v hk
  · intro e hm he hfail
    have hni : i ∉ (check_entries b f g m).1 := by
      intro hmem
      obtain ⟨e2, he2, h3, h4, h5, h6⟩ := (mem_check_entries b f g m i).mp hmem
      have he2l := mem_mlookup_of_nodup m i e2 hm he2
      rw [he] at he2l
      injection he2l with he2e
      subst he2e
      exact hfail ⟨h4, h5, h6⟩
    show mlookup ((check_entries b f g m).1.foldl dictDel m) i = some e
    rw [mlookup_foldl_dictDel_not_mem _ _ _ hni]
    exact he

/-- Witness for the amended C5: a successful completion tick (balance
reached, forward and mark-ready both succeed) removes the mid-flight
entry for request 2, and a failed exchange-withdrawal request clears a
fresh entry. -/
theorem processing_entry_removal_witness :
    hasKey (check_processing_withdrawals cexProcMap 250 (fun _ => true)
      (fun _ => true)).1 2 = false ∧
    hasKey (start_processing [] 7 500 false).1 7 = false := by
  constructor
  · refine ((processing_entry_removal cexProcMap 250 (fun _ => true)
      (fun _ => true) 2 0).1 (by norm_num [cexProcMap, keysNodup])
      (by norm_num [cexProcMap, hasKey])).mpr
      ⟨⟨250, WStep.waiting_usdc⟩, ?_, rfl, le_refl _, rfl, rfl⟩
    norm_num [cexProcMap, mlookup]
  · exact (processing_entry_removal [] 0 (fun _ => true) (fun _ => true)
      7 500).2.1 rfl

/-- C6: for a PENDING withdrawal whose preview valuation is `v > 0`, the
processor requests an exchange withdrawal of exactly `v/2` and tracks
`v/2` as the due settlement; the forward-to-vault and
`mark_withdrawal_ready` invocations (the latter with amount `v/2` in
6-decimal fixed point) happen only for entries whose due amount the
operator balance has reached; and in the spec scenario (settlement value
500) the entry waits for 250: at balance 249.99 nothing happens, at
balance 250 `mark_withdrawal_ready` is invoked with 250.000000 and the
entry leaves the processing set (READY). -/
theorem withdrawal_half_split (v b : ℚ) (m : ProcMap) (id : Nat) (ok : Bool)
    (f g : Nat → Bool) :
    (0 < v → (start_processing m id v ok).2 =
      [WEvent.requestWithdrawExchange id (v/2)]) ∧
    (0 < v → mlookup (start_processing m id v true).1 id =
      some ⟨v/2, WStep.waiting_usdc⟩) ∧
    (∀ amt, WEvent.forwardToVault amt ∈
        (check_processing_withdrawals m b f g).2 →
      ∃ j e, (j, e) ∈ m ∧ e.step = WStep.waiting_usdc ∧ e.usdc_value ≤ b ∧
        amt = e.usdc_value) ∧
    (∀ j amt, WEvent.markReady j amt ∈
        (check_processing_withdrawals m b f g).2 →
      ∃ e, (j, e) ∈ m ∧ e.step = WStep.waiting_usdc ∧ e.usdc_value ≤ b ∧
        amt = Int.floor (e.usdc_value * 1000000)) ∧
    (mlookup scenProcMap 2 = some ⟨250, WStep.waiting_usdc⟩ ∧
      (check_processing_withdrawals scenProcMap (24999/100)
        (fun _ => true) (fun _ => true)).2 = [] ∧
      WEvent.markReady 2 250000000 ∈
        (check_processing_withdrawals scenProcMap 250
          (fun _ => true) (fun _ => true)).2 ∧
      hasKey (check_processing_withdrawals scenProcMap 250
        (fun _ => true) (fun _ => true)).1 2 = false) := by
  have hsm : scenProcMap = [(2, ⟨250, WStep.waiting_usdc⟩)] := by
    norm_num [scenProcMap, process_pending_withdrawals, scan_ids,
      List.range_succ, scenQueue, scenPreview, start_processing, dictSet,
      hasKey]
  refine ⟨?_, ?_, ?_, ?_, ?_, ?_, ?_, ?_⟩
  · intro hv
    rw [start_processing_events, if_neg (not_le.mpr hv)]
  · intro hv
    exact mlookup_start_processing_ok m id v hv
  · intro amt h
    obtain ⟨j, e, he, h3, h4, h5⟩ := check_entries_events b f g m _ h
    exact ⟨j, e, he, h3, h4,
      complete_processing_forward_mem j e (f j) (g j) amt h5⟩
  · intro j amt h
    obtain ⟨j2, e, he, h3, h4, h5⟩ := check_entries_events b f g m _ h
    obtain ⟨hj, hamt, -⟩ := complete_processing_mark_mem j2 e (f j2) (g j2) j amt h5
    subst hj
    exact ⟨e, he, h3, h4, hamt⟩
  · rw [hsm]
    norm_num [mlookup]
  · rw [hsm]
    norm_num [check_processing_withdrawals, check_entries]
  · rw [hsm]
    norm_num [check_processing_withdrawals, check_entries, complete_processing]
  · rw [hsm]
    norm_num [check_processing_withdrawals, check_entries, complete_processing,
      hasKey, dictDel]

/-- Witness for C6 with preview value 500: the exchange withdrawal is
requested for exactly 250. -/
theorem withdrawal_half_split_witness :
    (start_processing [] 2 500 true).2 =
      [WEvent.requestWithdrawExchange 2 250] := by
  have h := (withdrawal_half_split 500 0 [] 2 true (fun _ => true)
    (fun _ => true)).1 (by norm_num)
  rw [h]
  norm_num

lemma scan_deposits_mem (q : Nat → Option DepositQueueItem) :
    ∀ (fuel start id : Nat), id ∈ scan_deposits q fuel start →
      ∃ d, q id = some d ∧ d.user ≠ 0 ∧ d.processed = false ∧
        1/100 < d.usdc_amount := by
  intro fuel
  induction fuel with
  | zero => intro start id h; simp [scan_deposits] at h
  | succ fuel ih =>
    intro start id h
    cases hq : q start with
    | none =>
      simp only [scan_deposits, hq] at h
      exact ih _ _ h
    | some d =>
      simp only [scan_deposits, hq] at h
      by_cases hu : d.user = 0
      · rw [if_pos hu] at h
        simp at h
      · rw [if_neg hu] at h
        by_cases hp : d.processed = true
        · rw [if_pos hp] at h
          exact ih _ _ h
        · rw [if_neg hp] at h
          by_cases hd : d.usdc_amount ≤ 1/100
          · rw [if_pos hd] at h
            exact ih _ _ h
          · rw [if_neg hd] at h
            rcases List.mem_cons.mp h with h1 | h2
            · subst h1
              exact ⟨d, hq, hu, Bool.not_eq_true _ ▸ hp, not_le.mp hd⟩
            · exact ih _ _ h2

lemma scan_deposits_ge (q : Nat → Option DepositQueueItem) :
    ∀ (fuel start id : Nat), id ∈ scan_deposits q fuel start → start ≤ id := by
  intro fuel
  induction fuel with
  | zero => intro start id h; simp [scan_deposits] at h
  | succ fuel ih =>
    intro start id h
    cases hq : q start with
    | none =>
      simp only [scan_deposits, hq] at h
      exact le_of_lt (lt_of_lt_of_le (Nat.lt_succ_self start) (ih _ _ h))
    | some d =>
      simp only [scan_deposits, hq] at h
      by_cases hu : d.user = 0
      · rw [if_pos hu] at h
        simp at h
      · rw [if_neg hu] at h
        by_cases hp : d.processed = true
        · rw [if_pos hp] at h
          exact le_of_lt (lt_of_lt_of_le (Nat.lt_succ_self start) (ih _ _ h))
        · rw [if_neg hp] at h
          by_cases hd : d.usdc_amount ≤ 1/100
          · rw [if_pos hd] at h
            exact le_of_lt (lt_of_lt_of_le (Nat.lt_succ_self start) (ih _ _ h))
          · rw [if_neg hd] at h
            rcases List.mem_cons.mp h with h1 | h2
            · exact h1.ge
            · exact le_of_lt (lt_of_lt_of_le (Nat.lt_succ_self start) (ih _ _ h2))

lemma scan_deposits_nodup (q : Nat → Option DepositQueueItem) :
    ∀ (fuel start : Nat), (scan_deposits q fuel start).Nodup := by
  intro fuel
  induction fuel with
  | zero => intro start; simp [scan_deposits]
  | succ fuel ih =>
    intro start
    cases hq : q start with
    | none =>
      simp only [scan_deposits, hq]
      exact ih _
    | some d =>
      simp only [scan_deposits, hq]
      by_cases hu : d.user = 0
      · rw [if_pos hu]; exact List.nodup_nil
      · rw [if_neg hu]
        by_cases hp : d.processed = true
        · rw [if_pos hp]; exact ih _
        · rw [if_neg hp]
          by_cases hd : d.usdc_amount ≤ 1/100
          · rw [if_pos hd]; exact ih _
          · rw [if_neg hd]
            refine List.nodup_cons.mpr ⟨?_, ih _⟩
            intro hmem
            exact absurd (scan_deposits_ge q fuel (start+1) start hmem)
              (by omega)

/-- C3: idempotent deposit scan.  An entry whose on-chain `processed`
flag is true is skipped without any mint invocation; one pass never
issues two mint invocations for the same id; and after a successful first
pass (all invoked entries now read back `processed = true`, no new
entries), a second pass issues no mint invocation for any of them — the
two passes together contain no duplicate mint invocation. -/
theorem deposit_scan_idempotent (q : Nat → Option DepositQueueItem)
    (id : Nat) (d : DepositQueueItem) :
    (q id = some d → d.processed = true → id ∉ process_pending_deposits q) ∧
    (∀ i, i ∈ process_pending_deposits q →
      i ∉ process_pending_deposits
        (markProcessed q (process_pending_deposits q))) ∧
    (process_pending_deposits q ++ process_pending_deposits
      (markProcessed q (process_pending_deposits q))).Nodup := by
  have hskip : ∀ (q2 : Nat → Option DepositQueueItem) (i : Nat)
      (d2 : DepositQueueItem), q2 i = some d2 → d2.processed = true →
      i ∉ process_pending_deposits q2 := by
    intro q2 i d2 hq hp hmem
    obtain ⟨d3, hq3, -, hp3, -⟩ := scan_deposits_mem q2 100 0 i hmem
    rw [hq] at hq3
    injection hq3 with hd3
    subst hd3
    rw [hp] at hp3
    exact Bool.noConfusion hp3
  have hsecond : ∀ i, i ∈ process_pending_deposits q →
      i ∉ process_pending_deposits
        (markProcessed q (process_pending_deposits q)) := by
    intro i hi
    obtain ⟨d2, hq2, -, -, -⟩ := scan_deposits_mem q 100 0 i hi
    refine hskip _ i { d2 with processed := true } ?_ rfl
    rw [markProcessed, hq2]
    simp [hi]
  refine ⟨fun hq hp => hskip q id d hq hp, hsecond, ?_⟩
  rw [List.nodup_append]
  refine ⟨scan_deposits_nodup q 100 0, scan_deposits_nodup _ 100 0, ?_⟩
  intro i hi
  exact hsecond i hi

/-- Witness for C3: in a queue whose entry 0 is `processed = true`, the
scan issues no mint invocation for id 0. -/
theorem deposit_scan_idempotent_witness :
    0 ∉ process_pending_deposits exampleDepositQueue :=
  (deposit_scan_idempotent exampleDepositQueue 0 ⟨1, 5, true⟩).1 rfl rfl

/-- C9 counterexample: a single `expect_withdrawal(100)` registration —
an event the monitor processes, and the only way
`pending_withdrawal_amount` ever rises — makes
`pending_deposit + pending_withdrawal_amount = 100` while the total
observed inflow is 0, contradicting the claim that the sum never exceeds
the total unclassified inflow observed so far. -/
theorem balance_conservation_cex :
    (monRun monInit [MonEvent.expectWithdraw 100]).pending_deposit +
      (monRun monInit [MonEvent.expectWithdraw 100]).pending_withdrawal_amount
        = 100 ∧
    totalInflow monInit [MonEvent.expectWithdraw 100] = 0 ∧
    ¬((monRun monInit [MonEvent.expectWithdraw 100]).pending_deposit +
        (monRun monInit [MonEvent.expectWithdraw 100]).pending_withdrawal_amount
          ≤ totalInflow monInit [MonEvent.expectWithdraw 100]) := by
  norm_num [monRun, monStep, monInit, expect_withdrawal, totalInflow,
    observedInflow]

lemma classify_increase_sum_le (s : MonState) (cur : ℚ) (ok : Bool) :
    (classify_increase s cur ok).1.pending_deposit +
      (classify_increase s cur ok).1.pending_withdrawal_amount ≤
      s.pending_deposit + s.pending_withdrawal_amount +
        max 0 (cur - s.last_balance) := by
  have hmax0 : 0 ≤ max 0 (cur - s.last_balance) := le_max_left _ _
  have hm1 : min (cur - s.last_balance) s.pending_withdrawal_amount ≤
      cur - s.last_balance := min_le_left _ _
  have hm2 : min (cur - s.last_balance) s.pending_withdrawal_amount ≤
      s.pending_withdrawal_amount := min_le_right _ _
  unfold classify_increase
  by_cases hc : s.last_balance < cur
  · have hmax : max 0 (cur - s.last_balance) = cur - s.last_balance :=
      max_eq_right (by linarith)
    have hmm : 0 < min (cur - s.last_balance) s.pending_withdrawal_amount →
        True := fun _ => trivial
    rw [if_pos hc]
    dsimp only
    by_cases hw : 0 < s.pending_withdrawal_amount
    · have hm3 : 0 < min (cur - s.last_balance) s.pending_withdrawal_amount :=
        lt_min (by linarith) hw
      rw [if_pos hw]
      cases ok
      · rw [if_neg Bool.false_ne_true]
        split_ifs with hpd <;> dsimp only <;> rw [hmax] <;> linarith
      · rw [if_pos rfl]
        split_ifs with hpd <;> dsimp only <;> rw [hmax] <;> linarith
    · rw [if_neg hw]
      split_ifs with hpd <;> dsimp only <;> rw [hmax] <;> linarith
  · rw [if_neg hc]
    dsimp only
    linarith

lemma monStep_sum_le (s : MonState) (e : MonEvent) :
    (monStep s e).pending_deposit + (monStep s e).pending_withdrawal_amount ≤
      s.pending_deposit + s.pending_withdrawal_amount + observedInflow s e +
        expectAmount e := by
  cases e with
  | expectWithdraw a =>
    simp only [monStep, expect_withdrawal, observedInflow, expectAmount]
    linarith
  | observe cur f1 f2 =>
    simp only [monStep, observedInflow, expectAmount]
    have hcl := classify_increase_sum_le s cur f2
    have hmax0 : 0 ≤ max 0 (cur - s.last_balance) := le_max_left _ _
    unfold check_for_balance_changes
    by_cases h1 : 0 < s.pending_withdrawal_amount ∧ 1/10 < cur
    · have hm2 : 0 < min cur s.pending_withdrawal_amount :=
        lt_min (by linarith [h1.2]) h1.1
      rw [if_pos h1]
      dsimp only
      cases f1
      · rw [if_neg Bool.false_ne_true]
        dsimp only
        linarith
      · rw [if_pos rfl]
        dsimp only
        linarith
    · rw [if_neg h1]
      linarith

/-- C9 amended: for every event trace processed by the monitor (balance
observations with their forwarding outcomes, and expected-withdrawal
registrations), `pending_deposit + pending_withdrawal_amount` never
exceeds its initial value plus the total observed positive balance deltas
plus the total expected-withdrawal amounts registered — classification of
an inflow never creates funds beyond the inflow itself; only the
registrations (which announce money already leaving the exchange) raise
the bound. -/
theorem balance_classification_conservation (tr : List MonEvent) :
    ∀ s : MonState,
      (monRun s tr).pending_deposit +
          (monRun s tr).pending_withdrawal_amount ≤
        s.pending_deposit + s.pending_withdrawal_amount +
          totalInflow s tr + totalExpected tr := by
  induction tr with
  | nil =>
    intro s
    simp only [monRun, totalInflow, totalExpected, List.map_nil, List.sum_nil]
    linarith
  | cons e tr ih =>
    intro s
    have h1 := monStep_sum_le s e
    have h2 := ih (monStep s e)
    simp only [monRun, totalInflow, totalExpected, List.map_cons,
      List.sum_cons] at h2 ⊢
    linarith

/-- C10: when no withdrawal is expected and the balance did not increase
(new reading at or below the last one), a monitor tick only stores the
new reading: `pending_deposit` and `pending_withdrawal_amount` are
unchanged, no forwarding is attempted, and the method returns 0. -/
theorem balance_decrease_frame (s : MonState) (cur : ℚ) (f1 f2 : Bool)
    (hpw : s.pending_withdrawal_amount = 0) (hle : cur ≤ s.last_balance) :
    check_for_balance_changes s cur f1 f2 =
      ({ s with last_balance := cur }, [], 0) := by
  unfold check_for_balance_changes
  rw [if_neg (by rw [hpw]; rintro ⟨h1, -⟩; exact lt_irrefl 0 h1)]
  unfold classify_increase
  rw [if_neg (not_lt.mpr hle)]

/-- Witness for C10: balance falls from 5 to 3 with a pending deposit of
1 recorded; only `last_balance` changes. -/
theorem balance_decrease_frame_witness :
    check_for_balance_changes ⟨5, 1, 0⟩ 3 true true = (⟨3, 1, 0⟩, [], 0) :=
  balance_decrease_frame ⟨5, 1, 0⟩ 3 true true rfl (by norm_num)

end Unbound
